/-
Verification of the chunking + vector indexing + retrieval engine of the
LLM-Business-Intelligence-Assistant repository.

Shallow embedding of:
  backend/data_preprocessing.py : chunk_document
  backend/vector_store.py       : create_faiss_index, add_documents_to_index,
                                  save_index, load_index, get_metadata_by_id,
                                  search_index, METADATA_STORE, index_lock
  backend/retrieval.py          : retrieve_relevant_chunks (core of it)
  backend/config.py             : FAISS_INDEX_PATH

Modelling conventions:
  * Python str words (whitespace-separated tokens of sentences) are an abstract
    type; a sentence is its list of words, as produced by nltk.sent_tokenize.
    The chunker only counts, slices and concatenates words, never inspects
    them, so `current_chunk` is embedded as its word list and
    `len(current_chunk.split())` as `List.length`.  nltk sentence tokenization
    yields no whitespace-only sentence, so a sentence is a nonempty word list
    and string truthiness of `current_chunk` coincides with the word list
    being nonempty.
  * numpy float arrays are embedded as lists of integers (an exact grid of
    representable values); squared L2 distance is exact integer arithmetic.
  * faiss.IndexFlatL2 is external library code; its documented semantics
    (exact squared-L2 k-nearest-neighbour search, results in ascending
    distance order, ties on smaller id first, sequential ids 0..ntotal-1)
    is embedded as sorting the stored vectors by (distance, id).
  * The Python dict METADATA_STORE is an association list with the insertion
    behaviour of dict (replace in place if the key exists, append otherwise);
    len(dict) is the entry count.
  * The filesystem is an association list path -> file content; open(..,"wb")
    plus pickle/faiss serialization is embedded as storing the value itself,
    and os.replace as read-erase-write.
  * threading.Lock is non-reentrant: an acquire while the lock is held by the
    same thread never returns.  Blocking forever is embedded as `none`.
-/

import Mathlib

/-! ### Chunker: backend/data_preprocessing.py, chunk_document (lines 60-90) -/

instance decListEqNil {α : Type} (l : List α) : Decidable (l = []) :=
  match l with
  | [] => isTrue rfl
  | _ :: _ => isFalse (by simp)

/-- Python `l[-n:]` for `n > 0`: the last `min n (length l)` elements. -/
def lastN {α : Type} (n : ℕ) (l : List α) : List α :=
  l.drop (l.length - n)

/-- The sentence loop of `chunk_document` (lines 69-84) followed by the final
flush (lines 87-88).  State: accumulated `chunks` and the running buffer
`current_chunk` (`cur`), both as word lists. -/
def chunkGo {α : Type} (mx mn ov : ℕ) :
    List (List α) → List α → List (List α) → List (List α)
  | chunks, cur, [] =>
      -- line 87: `if current_chunk and len(current_chunk.split()) >= min_chunk_size`
      if cur ≠ [] ∧ mn ≤ cur.length then chunks ++ [cur] else chunks
  | chunks, cur, s :: rest =>
      -- line 71: `if len(current_chunk.split()) + len(sentence.split()) > max_chunk_size`
      if cur.length + s.length > mx then
        chunkGo mx mn ov
          -- line 73: close the buffer only if it reached min_chunk_size
          (if mn ≤ cur.length then chunks ++ [cur] else chunks)
          -- lines 77-82: seed the next buffer with the overlap tail
          (if 0 < ov ∧ cur ≠ [] then lastN ov cur ++ s else s)
          rest
      else
        -- line 84: `current_chunk += " " + sentence`
        chunkGo mx mn ov chunks (cur ++ s) rest

/-- Embeds `chunk_document(text, max_chunk_size, min_chunk_size, overlap)`:
`sents` is `nltk.sent_tokenize(text)` with each sentence given by its word
list. -/
def chunk_document {α : Type} (sents : List (List α)) (mx mn ov : ℕ) :
    List (List α) :=
  chunkGo mx mn ov [] [] sents

/-- Instrumented copy of `chunkGo`: additionally records in a flag whether a
nonempty buffer was ever discarded for being below `min_chunk_size`
(the silent drop at line 73 / line 87). -/
def chunkGoD {α : Type} (mx mn ov : ℕ) :
    List (List α) → List α → Bool → List (List α) → List (List α) × Bool
  | chunks, cur, dropped, [] =>
      (if cur ≠ [] ∧ mn ≤ cur.length then chunks ++ [cur] else chunks,
       dropped || (decide (cur ≠ []) && decide (cur.length < mn)))
  | chunks, cur, dropped, s :: rest =>
      if cur.length + s.length > mx then
        chunkGoD mx mn ov
          (if mn ≤ cur.length then chunks ++ [cur] else chunks)
          (if 0 < ov ∧ cur ≠ [] then lastN ov cur ++ s else s)
          (dropped || (decide (cur ≠ []) && decide (cur.length < mn)))
          rest
      else
        chunkGoD mx mn ov chunks (cur ++ s) dropped rest

/-- The function `chunk_document` with the drop flag. -/
def chunk_documentD {α : Type} (sents : List (List α)) (mx mn ov : ℕ) :
    List (List α) × Bool :=
  chunkGoD mx mn ov [] [] false sents

/-- Remove from each chunk after `prev` the overlap region carried at its
head: the first `min ov (length prev)` words, which `chunk_document` copied
from the tail of the buffer it had just closed. -/
def unchunkTail {α : Type} (ov : ℕ) : List α → List (List α) → List α
  | _, [] => []
  | prev, c :: cs => c.drop (min ov prev.length) ++ unchunkTail ov c cs

/-- Concatenate chunks with each non-first chunk's carried overlap removed. -/
def unchunk {α : Type} (ov : ℕ) : List (List α) → List α
  | [] => []
  | c :: cs => c ++ unchunkTail ov c cs

/-- Generalisation of `unchunk` where the first chunk also carries `n`
overlap words. -/
def unchunkFrom {α : Type} (ov n : ℕ) : List (List α) → List α
  | [] => []
  | c :: cs => c.drop n ++ unchunkTail ov c cs

/-! ### Vector index: backend/vector_store.py -/

/-- An embedding vector (a row of a numpy float array, on an exact grid). -/
abbrev Vec := List ℤ

/-- Squared Euclidean distance used by faiss.IndexFlatL2. -/
def sqDist (q v : Vec) : ℤ :=
  ((q.zip v).map (fun p => (p.1 - p.2) * (p.1 - p.2))).sum

/-- faiss.IndexFlatL2: dimension plus the stored vectors in insertion order;
the vector stored at position `i` has id `i` and `ntotal` is the count. -/
structure FaissIndex where
  dim : ℕ
  vecs : List Vec
deriving DecidableEq

/-- Embeds `index.add(embeddings)`: appends the rows; faiss raises (here `none`) when
the rows do not have the index's dimension. -/
def faissIndexAdd (index : FaissIndex) (embs : List Vec) : Option FaissIndex :=
  if embs.all (fun v => v.length = index.dim) then
    some ⟨index.dim, index.vecs ++ embs⟩
  else
    none

/-- Candidate list for a query: (id, squared distance) per stored vector. -/
def faissEntries (vs : List Vec) (q : Vec) : List (ℕ × ℤ) :=
  vs.enum.map (fun p => (p.1, sqDist q p.2))

/-- Comparison used by flat-index search: ascending distance, ties on the
smaller id. -/
def pairLe (a b : ℕ × ℤ) : Prop :=
  a.2 < b.2 ∨ (a.2 = b.2 ∧ a.1 ≤ b.1)

instance decPairLe : DecidableRel pairLe := by
  intro a b
  unfold pairLe
  infer_instance

instance totalPairLe : IsTotal (ℕ × ℤ) pairLe := by
  constructor
  intro a b
  unfold pairLe
  rcases lt_trichotomy a.2 b.2 with h | h | h
  · exact Or.inl (Or.inl h)
  · rcases Nat.le_total a.1 b.1 with h' | h'
    · exact Or.inl (Or.inr ⟨h, h'⟩)
    · exact Or.inr (Or.inr ⟨h.symm, h'⟩)
  · exact Or.inr (Or.inl h)

instance transPairLe : IsTrans (ℕ × ℤ) pairLe := by
  constructor
  intro a b c hab hbc
  unfold pairLe at *
  rcases hab with h1 | ⟨h1, h1'⟩ <;> rcases hbc with h2 | ⟨h2, h2'⟩
  · exact Or.inl (h1.trans h2)
  · exact Or.inl (lt_of_lt_of_eq h1 h2)
  · exact Or.inl (lt_of_eq_of_lt h1 h2)
  · exact Or.inr ⟨h1.trans h2, h1'.trans h2'⟩

/-- Embeds `index.search(query, k)`: the `k` stored vectors nearest to the query in
ascending squared-L2 order, ties on smaller id (faiss flat-index semantics,
external to the repository). -/
def faiss_search (vs : List Vec) (q : Vec) (k : ℕ) : List (ℕ × ℤ) :=
  (List.insertionSort pairLe (faissEntries vs q)).take k

/-! #### METADATA_STORE: a Python dict id -> metadata (line 15) -/

/-- Python `d[k]` lookup (as an Option). -/
def dictLookup {M : Type} (d : List (ℕ × M)) (k : ℕ) : Option M :=
  (d.find? (fun p => p.1 == k)).map Prod.snd

/-- Python `d[k] = v`: replace in place when the key exists, append
otherwise. -/
def dictInsert {M : Type} (d : List (ℕ × M)) (k : ℕ) (v : M) : List (ℕ × M) :=
  if (dictLookup d k).isSome then
    d.map (fun p => if p.1 = k then (k, v) else p)
  else
    d ++ [(k, v)]

/-- Python `len(METADATA_STORE)`: the entry count (dict keys are unique). -/
def dictLen {M : Type} (d : List (ℕ × M)) : ℕ := d.length

/-- The keys of the metadata store are exactly `0..len-1` in order — the
state every store reachable by `add_documents_to_index` from empty has. -/
def wfStore {M : Type} (d : List (ℕ × M)) : Prop :=
  d.map Prod.fst = List.range d.length

/-- Lines 49-50: `ids = range(len(METADATA_STORE), len(METADATA_STORE) + N)`. -/
def assignedIds {M : Type} (store : List (ℕ × M)) (embs : List Vec) : List ℕ :=
  List.range' (dictLen store) embs.length

/-- Embeds the data-transformation part of
`add_documents_to_index(index, embeddings, metadata)` (lines 42-63) on
(METADATA_STORE, index), up to but excluding the `save_index` call of
line 60.  The store is mutated first (lines 53-54); `index.add` (line 57)
may then raise, which is returned as `none` in the second component with
the store already mutated — exactly the Python control flow, where the
exception propagates after the dict update and before any save.  The full
call including `with index_lock` (line 47) and the nested `save_index`
(line 60) — which deadlocks on the non-reentrant lock — is
`add_documents_to_index_locked`; only the exception path of this function
is reachable to completion in the real program. -/
def add_documents_to_index {M : Type} (store : List (ℕ × M))
    (index : FaissIndex) (embs : List Vec) (metas : List M) :
    List (ℕ × M) × Option (FaissIndex × List ℕ) :=
  let ids := assignedIds store embs
  let store' := (ids.zip metas).foldl (fun d p => dictInsert d p.1 p.2) store
  match faissIndexAdd index embs with
  | none => (store', none)
  | some index' => (store', some (index', ids))

/-- Embeds `get_metadata_by_id` (lines 117-121); `none` is the `{}` default. -/
def get_metadata_by_id {M : Type} (store : List (ℕ × M)) (idx : ℕ) :
    Option M :=
  dictLookup store idx

/-- Embeds `search_index(index, query_embedding, top_k)` (lines 123-143): empty-index
guard, then search with `min(top_k, index.ntotal)`, returning
(distances, indices, metadata per id). -/
def search_index {M : Type} (store : List (ℕ × M)) (index : FaissIndex)
    (q : Vec) (top_k : ℕ) : List ℤ × List ℕ × List (Option M) :=
  if index.vecs.length = 0 then
    ([], [], [])
  else
    let res := faiss_search index.vecs q (min top_k index.vecs.length)
    (res.map Prod.snd, res.map Prod.fst,
     res.map (fun p => get_metadata_by_id store p.1))

/-! #### Persistence: save_index / load_index (lines 65-115) -/

/-- Contents of the two persisted files (serialization is embedded as the
identity: pickle.dump/load and faiss write_index/read_index are inverse). -/
inductive FileContent (M : Type) where
  | indexFile (dim : ℕ) (vecs : List Vec)
  | metaFile (store : List (ℕ × M))

/-- The filesystem: an association list path -> content. -/
abbrev FS (M : Type) := List (String × FileContent M)

def fsRead {M : Type} (fs : FS M) (p : String) : Option (FileContent M) :=
  (fs.find? (fun e => e.1 == p)).map Prod.snd

def fsErase {M : Type} (fs : FS M) (p : String) : FS M :=
  fs.filter (fun e => ¬ e.1 == p)

/-- Python `open(p, "wb")` plus dump: (over)write one file. -/
def fsWrite {M : Type} (fs : FS M) (p : String) (c : FileContent M) : FS M :=
  (p, c) :: fsErase fs p

/-- Python `os.replace(src, dst)`: atomically rename `src` onto `dst`. -/
def osReplace {M : Type} (fs : FS M) (src dst : String) : FS M :=
  match fsRead fs src with
  | some c => fsWrite (fsErase fs src) dst c
  | none => fs

/-- backend/config.py line 10 default. -/
def FAISS_INDEX_PATH : String := "./backend/faiss_index.index"

/-- Embeds `save_index(index, metadata, path)` (lines 65-89): write both files to
temp names, then rename each onto its final name. -/
def save_index {M : Type} (index : FaissIndex) (metadata : List (ℕ × M))
    (path : String) (fs : FS M) : FS M :=
  let fs1 := fsWrite fs (path ++ ".temp") (.indexFile index.dim index.vecs)
  let fs2 := fsWrite fs1 (path ++ ".meta.temp") (.metaFile metadata)
  let fs3 := osReplace fs2 (path ++ ".temp") path
  osReplace fs3 (path ++ ".meta.temp") (path ++ ".meta")

/-- The two distinct FileNotFoundError conditions of `load_index`
(lines 96-101), plus the failure of reading malformed content. -/
inductive LoadError where
  | indexNotFound
  | metadataNotFound
  | readFailed
deriving DecidableEq

/-- Embeds `load_index(path)` (lines 91-115): check the index file, then the
metadata file, then read both and replace METADATA_STORE wholesale. -/
def load_index {M : Type} (path : String) (fs : FS M) :
    Except LoadError (FaissIndex × List (ℕ × M)) :=
  match fsRead fs path with
  | none => .error .indexNotFound
  | some c =>
    match fsRead fs (path ++ ".meta") with
    | none => .error .metadataNotFound
    | some d =>
      match c, d with
      | .indexFile dim vecs, .metaFile store => .ok (⟨dim, vecs⟩, store)
      | _, _ => .error .readFailed

/-! ### Retrieval: backend/retrieval.py -/

/-- Line 71: `relevance_score = 1.0 / (1.0 + distance)`. -/
def relevance_score (d : ℚ) : ℚ := 1 / (1 + d)

/-- The index/search/score core of `retrieve_relevant_chunks` (lines 40-73):
load the persisted pair (propagating FileNotFoundError), search with
`top_k = MAX_RETRIEVED_CHUNKS`, and record one relevance score per retrieved
chunk.  Returns (distances, ids, metadata, recorded scores). -/
def retrieve_relevant_chunks {M : Type} (fs : FS M) (query_embedding : Vec)
    (k : ℕ) : Except LoadError (List ℤ × List ℕ × List (Option M) × List ℚ) :=
  match load_index FAISS_INDEX_PATH fs with
  | .error e => .error e
  | .ok (index, store) =>
    let r := search_index store index query_embedding k
    .ok (r.1, r.2.1, r.2.2, r.1.map (fun d : ℤ => relevance_score (d : ℚ)))

/-! ### The index_lock (line 18): a non-reentrant threading.Lock

`with index_lock:` on a lock already held by the current thread never
returns; `none` denotes that the call blocks forever. -/

def withLock {α : Type} (locked : Bool) (body : Bool → Option α) : Option α :=
  if locked then none else body true

/-- The function `save_index` including its `with index_lock` (line 69). -/
def save_index_locked {M : Type} (locked : Bool) (index : FaissIndex)
    (metadata : List (ℕ × M)) (path : String) (fs : FS M) : Option (FS M) :=
  withLock locked (fun _ => some (save_index index metadata path fs))

/-- The function `load_index` including its `with index_lock` (line 95). -/
def load_index_locked {M : Type} (locked : Bool) (path : String) (fs : FS M) :
    Option (Except LoadError (FaissIndex × List (ℕ × M))) :=
  withLock locked (fun _ => some (load_index path fs))

/-- The function `add_documents_to_index` including its `with index_lock` (line 47) and
the nested `save_index(index, METADATA_STORE)` call (line 60). -/
def add_documents_to_index_locked {M : Type} (locked : Bool)
    (store : List (ℕ × M)) (index : FaissIndex) (embs : List Vec)
    (metas : List M) (fs : FS M) :
    Option (List (ℕ × M) × Option (FaissIndex × List ℕ × FS M)) :=
  withLock locked (fun l =>
    let r := add_documents_to_index store index embs metas
    match r.2 with
    | none => some (r.1, none)
    | some (index', ids) =>
      match save_index_locked l index' r.1 FAISS_INDEX_PATH fs with
      | none => none
      | some fs' => some (r.1, some (index', ids, fs')))

/-- Embeds `create_faiss_index(dim)` (lines 20-40) including its `with index_lock`
(line 25) and the nested `load_index()` call (line 31). -/
def create_faiss_index_locked {M : Type} (locked : Bool) (dim : ℕ)
    (fs : FS M) : Option (Except LoadError FaissIndex) :=
  withLock locked (fun l =>
    if (fsRead fs FAISS_INDEX_PATH).isSome ∧
       (fsRead fs (FAISS_INDEX_PATH ++ ".meta")).isSome then
      match load_index_locked l FAISS_INDEX_PATH fs with
      | none => none
      | some r => some (r.map Prod.fst)
    else
      some (.ok ⟨dim, []⟩))

/-! ## Helper lemmas -/

theorem string_append_right_injective (p : String) {a b : String}
    (h : p ++ a = p ++ b) : a = b := by
  have hd := congrArg String.data h
  rw [String.data_append, String.data_append] at hd
  have hd' := List.append_cancel_left hd
  cases a
  cases b
  simp_all

theorem append_suffix_ne (p : String) {a b : String} (h : a ≠ b) :
    p ++ a ≠ p ++ b :=
  fun he => h (string_append_right_injective p he)

theorem append_suffix_ne_self (p : String) {a : String} (h : a ≠ "") :
    p ++ a ≠ p := by
  intro he
  exact h (string_append_right_injective p (he.trans (String.append_empty p).symm))

theorem find?_cons_pos {β : Type} (f : β → Bool) (a : β) (l : List β)
    (h : f a = true) : (a :: l).find? f = some a := by
  simp [List.find?_cons, h]

theorem find?_cons_neg {β : Type} (f : β → Bool) (a : β) (l : List β)
    (h : f a = false) : (a :: l).find? f = l.find? f := by
  simp [List.find?_cons, h]

theorem fsRead_cons_eq {M : Type} (e : String × FileContent M) (t : FS M)
    {q : String} (h : e.1 = q) : fsRead (e :: t) q = some e.2 := by
  rw [fsRead, find?_cons_pos (fun e' : String × FileContent M => e'.1 == q)
    e t (by simp [h])]
  rfl

theorem fsRead_cons_ne {M : Type} (e : String × FileContent M) (t : FS M)
    {q : String} (h : e.1 ≠ q) : fsRead (e :: t) q = fsRead t q := by
  rw [fsRead, find?_cons_neg (fun e' : String × FileContent M => e'.1 == q)
    e t (by simp only [beq_eq_false_iff_ne]; exact h)]
  rfl

theorem fsRead_fsErase_other {M : Type} (fs : FS M) {p q : String}
    (h : q ≠ p) : fsRead (fsErase fs p) q = fsRead fs q := by
  induction fs with
  | nil => rfl
  | cons e t ih =>
    rw [fsErase, List.filter_cons]
    rw [fsErase] at ih
    by_cases hep : e.1 = p
    · rw [if_neg (by simp [hep]), ih,
        fsRead_cons_ne e t (fun hh => h (hh.symm.trans hep))]
    · rw [if_pos (by simp [hep])]
      by_cases heq : e.1 = q
      · rw [fsRead_cons_eq _ _ heq, fsRead_cons_eq _ _ heq]
      · rw [fsRead_cons_ne _ _ heq, fsRead_cons_ne _ _ heq, ih]

theorem fsRead_fsWrite_same {M : Type} (fs : FS M) (p : String)
    (c : FileContent M) : fsRead (fsWrite fs p c) p = some c := by
  rw [fsWrite, fsRead_cons_eq (p, c) (fsErase fs p) rfl]

theorem fsRead_fsWrite_other {M : Type} (fs : FS M) {p q : String}
    (c : FileContent M) (h : q ≠ p) :
    fsRead (fsWrite fs p c) q = fsRead fs q := by
  rw [fsWrite, fsRead_cons_ne (p, c) (fsErase fs p) (fun hh => h hh.symm)]
  exact fsRead_fsErase_other fs h

theorem save_load_roundtrip {M : Type} (index : FaissIndex)
    (metadata : List (ℕ × M)) (path : String) (fs : FS M) :
    load_index path (save_index index metadata path fs) =
      .ok (index, metadata) := by
  have hmt_ne_t : path ++ ".meta.temp" ≠ path ++ ".temp" :=
    append_suffix_ne path (by decide)
  have hmt_ne_m : path ++ ".meta.temp" ≠ path ++ ".meta" :=
    append_suffix_ne path (by decide)
  have hp_ne_t : path ++ ".temp" ≠ path := append_suffix_ne_self path (by decide)
  have hp_ne_mt : path ++ ".meta.temp" ≠ path :=
    append_suffix_ne_self path (by decide)
  have hp_ne_m : path ++ ".meta" ≠ path := append_suffix_ne_self path (by decide)
  have hr1 : fsRead
      (fsWrite (fsWrite fs (path ++ ".temp") (.indexFile index.dim index.vecs))
        (path ++ ".meta.temp") (.metaFile metadata))
      (path ++ ".temp") = some (.indexFile index.dim index.vecs) := by
    rw [fsRead_fsWrite_other _ _ (Ne.symm hmt_ne_t), fsRead_fsWrite_same]
  rw [save_index]
  rw [show osReplace
      (fsWrite (fsWrite fs (path ++ ".temp") (.indexFile index.dim index.vecs))
        (path ++ ".meta.temp") (.metaFile metadata))
      (path ++ ".temp") path =
      fsWrite (fsErase
        (fsWrite (fsWrite fs (path ++ ".temp")
            (.indexFile index.dim index.vecs))
          (path ++ ".meta.temp") (.metaFile metadata))
        (path ++ ".temp")) path (.indexFile index.dim index.vecs) from by
    rw [osReplace, hr1]]
  have hr2 : fsRead
      (fsWrite (fsErase
        (fsWrite (fsWrite fs (path ++ ".temp")
            (.indexFile index.dim index.vecs))
          (path ++ ".meta.temp") (.metaFile metadata))
        (path ++ ".temp")) path (.indexFile index.dim index.vecs))
      (path ++ ".meta.temp") = some (.metaFile metadata) := by
    rw [fsRead_fsWrite_other _ _ hp_ne_mt, fsRead_fsErase_other _ hmt_ne_t,
      fsRead_fsWrite_same]
  rw [show osReplace
      (fsWrite (fsErase
        (fsWrite (fsWrite fs (path ++ ".temp")
            (.indexFile index.dim index.vecs))
          (path ++ ".meta.temp") (.metaFile metadata))
        (path ++ ".temp")) path (.indexFile index.dim index.vecs))
      (path ++ ".meta.temp") (path ++ ".meta") =
      fsWrite (fsErase
        (fsWrite (fsErase
          (fsWrite (fsWrite fs (path ++ ".temp")
              (.indexFile index.dim index.vecs))
            (path ++ ".meta.temp") (.metaFile metadata))
          (path ++ ".temp")) path (.indexFile index.dim index.vecs))
        (path ++ ".meta.temp")) (path ++ ".meta") (.metaFile metadata) from by
    rw [osReplace, hr2]]
  have hr3 : fsRead
      (fsWrite (fsErase
        (fsWrite (fsErase
          (fsWrite (fsWrite fs (path ++ ".temp")
              (.indexFile index.dim index.vecs))
            (path ++ ".meta.temp") (.metaFile metadata))
          (path ++ ".temp")) path (.indexFile index.dim index.vecs))
        (path ++ ".meta.temp")) (path ++ ".meta") (.metaFile metadata))
      path = some (.indexFile index.dim index.vecs) := by
    rw [fsRead_fsWrite_other _ _ (Ne.symm hp_ne_m),
      fsRead_fsErase_other _ (Ne.symm hp_ne_mt), fsRead_fsWrite_same]
  have hr4 : fsRead
      (fsWrite (fsErase
        (fsWrite (fsErase
          (fsWrite (fsWrite fs (path ++ ".temp")
              (.indexFile index.dim index.vecs))
            (path ++ ".meta.temp") (.metaFile metadata))
          (path ++ ".temp")) path (.indexFile index.dim index.vecs))
        (path ++ ".meta.temp")) (path ++ ".meta") (.metaFile metadata))
      (path ++ ".meta") = some (.metaFile metadata) :=
    fsRead_fsWrite_same _ _ _
  rw [load_index, hr3, hr4]

/-- C7. `load_index` fails with the index-missing error when the index file
is absent and with the (distinct) metadata-missing error when only the
metadata file is absent; it returns a pair only when both files are present;
and `retrieve_relevant_chunks` on a state where the index file was never
written propagates the index-missing error instead of returning a result. -/
theorem load_index_notfound (M : Type) :
    (∀ (path : String) (fs : FS M), fsRead fs path = none →
      load_index path fs = .error .indexNotFound)
    ∧ (∀ (path : String) (fs : FS M), (fsRead fs path).isSome →
        fsRead fs (path ++ ".meta") = none →
        load_index path fs = .error .metadataNotFound)
    ∧ LoadError.indexNotFound ≠ LoadError.metadataNotFound
    ∧ (∀ (path : String) (fs : FS M) r, load_index path fs = .ok r →
        (fsRead fs path).isSome ∧ (fsRead fs (path ++ ".meta")).isSome)
    ∧ (∀ (fs : FS M) (q : Vec) (k : ℕ), fsRead fs FAISS_INDEX_PATH = none →
        retrieve_relevant_chunks fs q k = .error .indexNotFound) := by
  refine ⟨?_, ?_, by decide, ?_, ?_⟩
  · intro path fs h
    rw [load_index, h]
  · intro path fs h1 h2
    rw [Option.isSome_iff_exists] at h1
    obtain ⟨c, hc⟩ := h1
    rw [load_index, hc, h2]
  · intro path fs r h
    rw [load_index] at h
    cases hc : fsRead fs path with
    | none => rw [hc] at h; exact absurd h (by simp)
    | some c =>
      cases hd : fsRead fs (path ++ ".meta") with
      | none => rw [hc, hd] at h; exact absurd h (by simp)
      | some d => rw [hc, hd] at h; exact ⟨by simp, by simp⟩
  · intro fs q k h
    rw [retrieve_relevant_chunks, load_index, h]

/-- C8 (falsification). The claim that `add_documents_to_index` and
`create_faiss_index` always run to completion fails on the code:
`threading.Lock` is non-reentrant, `add_documents_to_index` calls
`save_index` while holding `index_lock`, and `create_faiss_index` calls
`load_index` while holding it, so the inner `with index_lock:` blocks
forever.  Evaluated here at explicit inputs: a one-vector add on an empty
store, and a create when both persisted files exist. -/
theorem index_lock_deadlock :
    add_documents_to_index_locked false ([] : List (ℕ × ℕ)) ⟨2, []⟩
      [[1, 2]] [5] [] = none
    ∧ @create_faiss_index_locked ℕ false 2
        (save_index ⟨2, []⟩ [] FAISS_INDEX_PATH []) = none := by
  constructor
  · rfl
  · rfl

theorem range'_append_one (s m n : ℕ) :
    List.range' s m ++ List.range' (s + m) n = List.range' s (m + n) := by
  have h := List.range'_append s m n 1
  simp at h
  rw [Nat.add_comm m n]
  simpa using h

theorem dictLookup_isSome_iff {M : Type} (d : List (ℕ × M)) (k : ℕ) :
    (dictLookup d k).isSome ↔ k ∈ d.map Prod.fst := by
  rw [dictLookup, Option.isSome_map', List.find?_isSome]
  constructor
  · rintro ⟨x, hx, hk⟩
    rw [List.mem_map]
    exact ⟨x, hx, by simpa using hk⟩
  · intro hk
    rw [List.mem_map] at hk
    obtain ⟨x, hx, hk⟩ := hk
    exact ⟨x, hx, by simp [hk]⟩

theorem wf_lookup_isSome {M : Type} {d : List (ℕ × M)} (h : wfStore d)
    (k : ℕ) : (dictLookup d k).isSome ↔ k < d.length := by
  rw [dictLookup_isSome_iff, h, List.mem_range]

theorem dictLookup_fresh_none {M : Type} {d : List (ℕ × M)} (h : wfStore d)
    {k : ℕ} (hk : d.length ≤ k) : dictLookup d k = none := by
  rw [← Option.not_isSome_iff_eq_none, wf_lookup_isSome h]
  omega

theorem dictInsert_fresh {M : Type} {d : List (ℕ × M)} {k : ℕ}
    (h : dictLookup d k = none) (v : M) : dictInsert d k v = d ++ [(k, v)] := by
  rw [dictInsert, h]
  simp

theorem wfStore_append {M : Type} {d : List (ℕ × M)} (h : wfStore d) (v : M) :
    wfStore (d ++ [(d.length, v)]) := by
  rw [wfStore] at *
  simp [h, List.range_succ]

theorem foldl_insert_block {M : Type} :
    ∀ (metas : List M) (d : List (ℕ × M)), wfStore d →
      ((List.range' d.length metas.length).zip metas).foldl
          (fun d p => dictInsert d p.1 p.2) d
        = d ++ (List.range' d.length metas.length).zip metas := by
  intro metas
  induction metas with
  | nil =>
    intro d _
    simp
  | cons m rest ih =>
    intro d hwf
    rw [List.length_cons, List.range'_succ d.length rest.length 1,
      List.zip_cons_cons]
    simp only [List.foldl_cons]
    rw [dictInsert_fresh (dictLookup_fresh_none hwf le_rfl) m]
    have hwf' : wfStore (d ++ [(d.length, m)]) := wfStore_append hwf m
    have ih' := ih (d ++ [(d.length, m)]) hwf'
    rw [show (d ++ [(d.length, m)]).length = d.length + 1 from by simp] at ih'
    rw [ih']
    simp

theorem zip_range'_lookup {M : Type} :
    ∀ (metas : List M) (s i : ℕ), i < metas.length →
      dictLookup ((List.range' s metas.length).zip metas) (s + i) =
        metas.get? i := by
  intro metas
  induction metas with
  | nil =>
    intro s i h
    simp at h
  | cons m rest ih =>
    intro s i h
    rw [List.length_cons, List.range'_succ s rest.length 1,
      List.zip_cons_cons]
    cases i with
    | zero =>
      simp only [Nat.add_zero]
      rw [dictLookup,
        find?_cons_pos (fun p : ℕ × M => p.1 == s) (s, m) _ (by simp)]
      rfl
    | succ j =>
      have hne : (fun p : ℕ × M => p.1 == s + (j + 1)) (s, m) = false := by
        simp
      rw [dictLookup,
        find?_cons_neg (fun p : ℕ × M => p.1 == s + (j + 1)) (s, m) _ hne]
      have hj : j < rest.length := Nat.lt_of_succ_lt_succ h
      have := ih (s + 1) j hj
      rw [show s + (j + 1) = s + 1 + j from by omega]
      exact this

theorem dictLookup_append_left_none {M : Type} (d t : List (ℕ × M)) (k : ℕ)
    (h : dictLookup d k = none) :
    dictLookup (d ++ t) k = dictLookup t k := by
  rw [dictLookup, List.find?_append]
  rw [dictLookup] at h
  have hfind : d.find? (fun p => p.1 == k) = none := by
    cases hf : d.find? (fun p => p.1 == k) with
    | none => rfl
    | some x =>
      rw [hf] at h
      simp at h
  rw [hfind]
  rfl

theorem add_documents_store_eq {M : Type} (store : List (ℕ × M))
    (index : FaissIndex) (embs : List Vec) (metas : List M)
    (hwf : wfStore store) (hlen : metas.length = embs.length) :
    (add_documents_to_index store index embs metas).1 =
      store ++ (List.range' store.length embs.length).zip metas := by
  have hfold : ((List.range' store.length embs.length).zip metas).foldl
      (fun d p => dictInsert d p.1 p.2) store =
      store ++ (List.range' store.length embs.length).zip metas := by
    rw [show embs.length = metas.length from hlen.symm]
    exact foldl_insert_block metas store hwf
  rw [add_documents_to_index]
  cases hcase : faissIndexAdd index embs with
  | none => simpa [assignedIds, dictLen, hcase] using hfold
  | some idx' => simpa [assignedIds, dictLen, hcase] using hfold

theorem add_documents_store_length {M : Type} (store : List (ℕ × M))
    (index : FaissIndex) (embs : List Vec) (metas : List M)
    (hwf : wfStore store) (hlen : metas.length = embs.length) :
    (add_documents_to_index store index embs metas).1.length =
      store.length + embs.length := by
  rw [add_documents_store_eq store index embs metas hwf hlen]
  simp [hlen]

/-- Supporting lemma: the data semantics of `add_documents_to_index` with N
embeddings and N metadata entries on a well-formed store (keys exactly
0..size-1) computes exactly the id block [size, size+N), stores the i-th
metadata entry under id size+i, appends the embeddings to the index in
order, assigns no previously present id, and ids of any later call are all
strictly larger.  This is what the add would return — but the real call
never returns: see `add_documents_ids_never_returned`. -/
theorem add_documents_assigns_ids {M : Type} (store : List (ℕ × M))
    (index : FaissIndex) (embs : List Vec) (metas : List M)
    (hwf : wfStore store) (hlen : metas.length = embs.length)
    (hdim : embs.all (fun v => v.length = index.dim) = true) :
    (add_documents_to_index store index embs metas).2 =
      some (⟨index.dim, index.vecs ++ embs⟩,
        List.range' store.length embs.length)
    ∧ (add_documents_to_index store index embs metas).1 =
        store ++ (List.range' store.length embs.length).zip metas
    ∧ wfStore (add_documents_to_index store index embs metas).1
    ∧ (∀ i, i < embs.length →
        dictLookup (add_documents_to_index store index embs metas).1
          (store.length + i) = metas.get? i)
    ∧ (∀ a ∈ assignedIds store embs, dictLookup store a = none)
    ∧ (∀ embs₂ : List Vec, ∀ a ∈ assignedIds store embs,
        ∀ b ∈ assignedIds (add_documents_to_index store index embs metas).1
          embs₂, a < b) := by
  have hadd : faissIndexAdd index embs =
      some ⟨index.dim, index.vecs ++ embs⟩ := by
    rw [faissIndexAdd, if_pos hdim]
  have hstore := add_documents_store_eq store index embs metas hwf hlen
  have hslen := add_documents_store_length store index embs metas hwf hlen
  refine ⟨?_, hstore, ?_, ?_, ?_, ?_⟩
  · rw [add_documents_to_index, hadd]
    rfl
  · rw [wfStore, hstore, List.map_append, hwf,
      List.map_fst_zip _ _ (by simp [hlen]),
      show (store ++ (List.range' store.length embs.length).zip metas).length
        = store.length + embs.length from by simp [hlen],
      List.range_eq_range', List.range_eq_range',
      show List.range' store.length embs.length =
        List.range' (0 + store.length) embs.length from by rw [Nat.zero_add]]
    exact range'_append_one 0 store.length embs.length
  · intro i hi
    rw [hstore,
      dictLookup_append_left_none _ _ _ (dictLookup_fresh_none hwf (by omega)),
      show embs.length = metas.length from hlen.symm]
    exact zip_range'_lookup metas store.length i (by omega)
  · intro a ha
    rw [assignedIds, List.mem_range'_1] at ha
    exact dictLookup_fresh_none hwf ha.1
  · intro embs₂ a ha b hb
    rw [assignedIds, List.mem_range'_1] at ha hb
    rw [dictLen] at ha
    rw [dictLen, hslen] at hb
    omega

/-- Concrete instance of the data-semantics lemma: adding one 2-dimensional
vector to a store holding one entry computes id 1 and appends the vector. -/
theorem add_documents_assigns_ids_witness :
    (add_documents_to_index [((0 : ℕ), (5 : ℕ))] ⟨2, [[3, 4]]⟩ [[1, 2]]
      [7]).2 = some (⟨2, [[3, 4], [1, 2]]⟩, [1]) :=
  (add_documents_assigns_ids [(0, 5)] ⟨2, [[3, 4]]⟩ [[1, 2]] [7]
    (by unfold wfStore; decide) (by decide) (by decide)).1

/-- C3 (counterexample).  The claim "either both the index vector count and
the metadata store grow by N or neither does; a failed append leaves the
metadata store unchanged" is false at an explicit input: adding one
3-dimensional embedding to a dimension-2 index raises in `index.add`, yet
the metadata store has already grown from 0 to 1 entries (lines 53-54 run
before line 57), and no rollback or count check exists. -/
theorem add_documents_atomicity_cex :
    (add_documents_to_index ([] : List (ℕ × ℕ)) ⟨2, []⟩ [[1, 2, 3]]
      [10]).1 = [(0, 10)]
    ∧ (add_documents_to_index ([] : List (ℕ × ℕ)) ⟨2, []⟩ [[1, 2, 3]]
      [10]).2 = none := by
  constructor
  · rfl
  · rfl

/-- C3 (amended).  `add_documents_to_index` is not atomic with respect to
the metadata store: the store always grows by N — also when appending the
vectors to the index fails — because the dict update precedes `index.add`
and no count-mismatch check or rollback exists; the append fails exactly
when some embedding does not have the index dimension, and on success the
index grows by the same N. -/
theorem add_documents_not_atomic {M : Type} (store : List (ℕ × M))
    (index : FaissIndex) (embs : List Vec) (metas : List M)
    (hwf : wfStore store) (hlen : metas.length = embs.length) :
    (add_documents_to_index store index embs metas).1.length =
      store.length + embs.length
    ∧ ((add_documents_to_index store index embs metas).2 = none ↔
        embs.all (fun v => v.length = index.dim) = false)
    ∧ (∀ index' ids, (add_documents_to_index store index embs metas).2 =
        some (index', ids) →
        index'.vecs.length = index.vecs.length + embs.length) := by
  refine ⟨add_documents_store_length store index embs metas hwf hlen, ?_, ?_⟩
  · rw [add_documents_to_index]
    cases hcase : faissIndexAdd index embs with
    | none =>
      rw [faissIndexAdd] at hcase
      simp only [hcase]
      constructor
      · intro _
        by_cases h : embs.all (fun v => v.length = index.dim) = true
        · rw [if_pos h] at hcase
          exact absurd hcase (by simp)
        · simpa using h
      · intro _
        simp
    | some idx' =>
      rw [faissIndexAdd] at hcase
      simp only [hcase]
      constructor
      · intro h
        exact absurd h (by simp)
      · intro h
        rw [if_neg (by simp [h])] at hcase
        exact absurd hcase (by simp)
  · intro index' ids h
    rw [add_documents_to_index] at h
    cases hcase : faissIndexAdd index embs with
    | none =>
      rw [hcase] at h
      exact absurd h (by simp)
    | some idx' =>
      rw [hcase] at h
      simp only [Option.some_inj, Prod.mk.injEq] at h
      rw [faissIndexAdd] at hcase
      by_cases hd : embs.all (fun v => v.length = index.dim) = true
      · rw [if_pos hd] at hcase
        have hidx : idx' = ⟨index.dim, index.vecs ++ embs⟩ :=
          (Option.some_inj.mp hcase).symm
        rw [← h.1, hidx]
        simp
      · rw [if_neg hd] at hcase
        exact absurd hcase (by simp)

/-- C3 (witness for the amended claim): on the failing concrete input the
metadata store has grown by one entry. -/
theorem add_documents_not_atomic_witness :
    (add_documents_to_index ([] : List (ℕ × ℕ)) ⟨2, []⟩ [[1, 2, 3]]
      [10]).1.length = 0 + 1 :=
  (add_documents_not_atomic [] ⟨2, []⟩ [[1, 2, 3]] [10]
    (by unfold wfStore; decide) (by decide)).1

theorem sqDist_nonneg (q v : Vec) : 0 ≤ sqDist q v := by
  apply List.sum_nonneg
  intro x hx
  rw [List.mem_map] at hx
  obtain ⟨p, _, rfl⟩ := hx
  exact mul_self_nonneg _

theorem length_faissEntries (vs : List Vec) (q : Vec) :
    (faissEntries vs q).length = vs.length := by
  simp [faissEntries]

theorem mem_faissEntries {vs : List Vec} {q : Vec} {p : ℕ × ℤ} :
    p ∈ faissEntries vs q ↔ ∃ v, vs.get? p.1 = some v ∧ p.2 = sqDist q v := by
  rw [faissEntries, List.mem_map]
  constructor
  · rintro ⟨e, he, rfl⟩
    rw [List.mem_enum_iff_get?] at he
    exact ⟨e.2, he, rfl⟩
  · rintro ⟨v, hv, hp⟩
    refine ⟨(p.1, v), ?_, ?_⟩
    · rw [List.mem_enum_iff_get?]
      exact hv
    · exact Prod.ext rfl hp.symm

theorem faiss_search_subset {vs : List Vec} {q : Vec} {k : ℕ} :
    ∀ p ∈ faiss_search vs q k, p ∈ faissEntries vs q := by
  intro p hp
  exact (List.perm_insertionSort pairLe _).subset
    ((List.take_sublist k _).subset hp)

theorem sorted_faiss_search (vs : List Vec) (q : Vec) (k : ℕ) :
    List.Sorted pairLe (faiss_search vs q k) :=
  (List.sorted_insertionSort pairLe (faissEntries vs q)).sublist
    (List.take_sublist k _)

theorem length_faiss_search (vs : List Vec) (q : Vec) (k : ℕ) :
    (faiss_search vs q k).length = min k vs.length := by
  rw [faiss_search, List.length_take, List.length_insertionSort,
    length_faissEntries]

theorem faiss_search_complete {vs : List Vec} {q : Vec} {k : ℕ}
    {p s : ℕ × ℤ} (hp : p ∈ faiss_search vs q k)
    (hs : s ∈ faissEntries vs q) (hns : s ∉ faiss_search vs q k) :
    pairLe p s := by
  have hsort := List.sorted_insertionSort pairLe (faissEntries vs q)
  have hsplit : List.insertionSort pairLe (faissEntries vs q) =
      faiss_search vs q k ++
        (List.insertionSort pairLe (faissEntries vs q)).drop k :=
    (List.take_append_drop k _).symm
  have hs' : s ∈ List.insertionSort pairLe (faissEntries vs q) :=
    ((List.perm_insertionSort pairLe _).mem_iff).mpr hs
  rw [hsplit] at hs'
  rcases List.mem_append.mp hs' with h | h
  · exact absurd h hns
  · rw [List.Sorted, hsplit, List.pairwise_append] at hsort
    exact hsort.2.2 p hp s h

theorem nodup_faiss_search_fst (vs : List Vec) (q : Vec) (k : ℕ) :
    ((faiss_search vs q k).map Prod.fst).Nodup := by
  have h1 : (faissEntries vs q).map Prod.fst = List.range vs.length := by
    rw [faissEntries, List.map_map]
    exact List.enum_map_fst vs
  have h2 : ((List.insertionSort pairLe (faissEntries vs q)).map
      Prod.fst).Nodup :=
    (((List.perm_insertionSort pairLe _).map Prod.fst).nodup_iff).mpr
      (h1 ▸ List.nodup_range vs.length)
  rw [faiss_search, List.map_take]
  exact h2.sublist (List.take_sublist k _)

theorem search_index_eq {M : Type} (store : List (ℕ × M))
    (index : FaissIndex) (q : Vec) (k : ℕ) (h : ¬ index.vecs.length = 0) :
    search_index store index q k =
      ((faiss_search index.vecs q (min k index.vecs.length)).map Prod.snd,
       (faiss_search index.vecs q (min k index.vecs.length)).map Prod.fst,
       (faiss_search index.vecs q (min k index.vecs.length)).map
         (fun p => get_metadata_by_id store p.1)) := by
  rw [search_index, if_neg h]

theorem map_fst_zip_map_snd {β γ : Type} (l : List (β × γ)) :
    (l.map Prod.fst).zip (l.map Prod.snd) = l := by
  rw [List.zip_map']
  have h : (fun a : β × γ => (a.1, a.2)) = id := funext (fun a => rfl)
  rw [h, List.map_id]

/-- C1. `search_index` returns `min k ntotal` results; the (id, distance)
result pairs are sorted ascending by distance with ties on the smaller id;
every returned pair is the exact squared-L2 distance of a stored vector;
every stored vector whose id is not returned is at least as far (under the
tie-breaking order) as every returned one — so the results are the k nearest
— the returned ids are pairwise distinct, the metadata column is the
metadata-store lookup of the returned ids, and an empty index yields the
empty result. -/
theorem search_index_knn {M : Type} (store : List (ℕ × M))
    (index : FaissIndex) (q : Vec) (k : ℕ) :
    (search_index store index q k).2.1.length = min k index.vecs.length
    ∧ (search_index store index q k).1.length = min k index.vecs.length
    ∧ List.Sorted pairLe ((search_index store index q k).2.1.zip
        (search_index store index q k).1)
    ∧ (∀ p ∈ (search_index store index q k).2.1.zip
        (search_index store index q k).1,
        ∃ v, index.vecs.get? p.1 = some v ∧ p.2 = sqDist q v)
    ∧ (∀ i v, index.vecs.get? i = some v →
        i ∉ (search_index store index q k).2.1 →
        ∀ p ∈ (search_index store index q k).2.1.zip
          (search_index store index q k).1, pairLe p (i, sqDist q v))
    ∧ (search_index store index q k).2.1.Nodup
    ∧ (search_index store index q k).2.2 =
        (search_index store index q k).2.1.map (get_metadata_by_id store)
    ∧ (index.vecs = [] → search_index store index q k = ([], [], [])) := by
  by_cases hempty : index.vecs.length = 0
  · rw [search_index, if_pos hempty]
    have h0 : min k index.vecs.length = 0 := by omega
    refine ⟨by simp [h0], by simp [h0], by simp, by simp, ?_, by simp, by simp,
      fun _ => rfl⟩
    intro i v _ _ p hp
    exact absurd hp (by simp)
  · rw [search_index_eq store index q k hempty]
    simp only [map_fst_zip_map_snd]
    have hlen := length_faiss_search index.vecs q (min k index.vecs.length)
    refine ⟨?_, ?_, sorted_faiss_search _ _ _, ?_, ?_, ?_, ?_, ?_⟩
    · rw [List.length_map, hlen]
      omega
    · rw [List.length_map, hlen]
      omega
    · intro p hp
      exact mem_faissEntries.mp (faiss_search_subset p hp)
    · intro i v hv hni p hp
      have hs : (i, sqDist q v) ∈ faissEntries index.vecs q :=
        mem_faissEntries.mpr ⟨v, hv, rfl⟩
      have hns : (i, sqDist q v) ∉
          faiss_search index.vecs q (min k index.vecs.length) := by
        intro hmem
        exact hni (List.mem_map.mpr ⟨(i, sqDist q v), hmem, rfl⟩)
      exact faiss_search_complete hp hs hns
    · exact nodup_faiss_search_fst _ _ _
    · rw [List.map_map]
      rfl
    · intro hv
      rw [hv] at hempty
      exact absurd rfl hempty

theorem search_index_dists_nonneg {M : Type} (store : List (ℕ × M))
    (index : FaissIndex) (q : Vec) (k : ℕ) :
    ∀ d ∈ (search_index store index q k).1, 0 ≤ d := by
  by_cases h : index.vecs.length = 0
  · rw [search_index, if_pos h]
    intro d hd
    exact absurd hd (by simp)
  · rw [search_index_eq store index q k h]
    intro d hd
    rw [List.mem_map] at hd
    obtain ⟨p, hp, rfl⟩ := hd
    obtain ⟨v, _, hpd⟩ := mem_faissEntries.mp (faiss_search_subset p hp)
    rw [hpd]
    exact sqDist_nonneg q v

theorem relevance_score_pos_le_one {d : ℚ} (hd : 0 ≤ d) :
    0 < relevance_score d ∧ relevance_score d ≤ 1 := by
  constructor
  · rw [relevance_score]
    positivity
  · rw [relevance_score, div_le_one (by linarith)]
    linarith

/-- C9. The relevance score recorded for every retrieved chunk equals
`1 / (1 + distance)` of that chunk's (squared-L2, hence non-negative)
distance; every recorded score lies in (0, 1]; and the transform is
monotonically decreasing, so of any two results the one at smaller distance
has the greater-or-equal score. -/
theorem relevance_score_bounds {M : Type} (fs : FS M) (q : Vec) (k : ℕ) :
    (∀ ds ids ms scores,
      retrieve_relevant_chunks fs q k = .ok (ds, ids, ms, scores) →
        scores = ds.map (fun d : ℤ => 1 / (1 + (d : ℚ)))
        ∧ ∀ s ∈ scores, 0 < s ∧ s ≤ 1)
    ∧ (∀ d : ℚ, 0 ≤ d → 0 < relevance_score d ∧ relevance_score d ≤ 1)
    ∧ (∀ d₁ d₂ : ℚ, 0 ≤ d₁ → d₁ ≤ d₂ →
        relevance_score d₂ ≤ relevance_score d₁) := by
  refine ⟨?_, fun d hd => relevance_score_pos_le_one hd, ?_⟩
  · intro ds ids ms scores h
    rw [retrieve_relevant_chunks] at h
    cases hload : load_index FAISS_INDEX_PATH fs with
    | error e =>
      rw [hload] at h
      exact absurd h (by simp)
    | ok r =>
      rw [hload] at h
      simp only [Except.ok.injEq, Prod.mk.injEq] at h
      obtain ⟨h1, _, _, h4⟩ := h
      have hsc : scores = ds.map (fun d : ℤ => relevance_score (d : ℚ)) := by
        rw [← h4, ← h1]
      constructor
      · exact hsc
      · intro s hs
        rw [hsc, List.mem_map] at hs
        obtain ⟨d, hd, rfl⟩ := hs
        apply relevance_score_pos_le_one
        have hd0 : (0 : ℤ) ≤ d := by
          apply search_index_dists_nonneg r.2 r.1 q k
          rw [← h1] at hd
          exact hd
        exact_mod_cast hd0
  · intro d1 d2 h1 h12
    rw [relevance_score, relevance_score]
    apply one_div_le_one_div_of_le <;> linarith

theorem lastN_length {α : Type} (n : ℕ) (l : List α) :
    (lastN n l).length = min n l.length := by
  rw [lastN, List.length_drop]
  omega

theorem lastN_append_drop {α : Type} (n : ℕ) (l s : List α) :
    (lastN n l ++ s).drop (min n l.length) = s := by
  have h := List.drop_left (lastN n l) s
  rw [lastN_length] at h
  exact h

theorem chunkGoD_acc {α : Type} (mx mn ov : ℕ) :
    ∀ (sents chunks : List (List α)) (cur : List α) (d : Bool),
      chunkGoD mx mn ov chunks cur d sents =
        (chunks ++ (chunkGoD mx mn ov [] cur false sents).1,
         d || (chunkGoD mx mn ov [] cur false sents).2) := by
  intro sents
  induction sents with
  | nil =>
    intro chunks cur d
    simp only [chunkGoD]
    split_ifs <;> simp
  | cons s rest ih =>
    intro chunks cur d
    simp only [chunkGoD]
    by_cases hsplit : cur.length + s.length > mx
    · simp only [if_pos hsplit]
      have h1 := ih (if mn ≤ cur.length then chunks ++ [cur] else chunks)
        (if 0 < ov ∧ cur ≠ [] then lastN ov cur ++ s else s)
        (d || (decide (cur ≠ []) && decide (cur.length < mn)))
      have h2 := ih (if mn ≤ cur.length then [] ++ [cur] else [])
        (if 0 < ov ∧ cur ≠ [] then lastN ov cur ++ s else s)
        (false || (decide (cur ≠ []) && decide (cur.length < mn)))
      rw [h1, h2]
      split_ifs <;> simp [List.append_assoc, Bool.or_assoc]
    · simp only [if_neg hsplit]
      exact ih chunks (cur ++ s) d

theorem chunkGoD_fst {α : Type} (mx mn ov : ℕ) :
    ∀ (sents chunks : List (List α)) (cur : List α) (d : Bool),
      (chunkGoD mx mn ov chunks cur d sents).1 =
        chunkGo mx mn ov chunks cur sents := by
  intro sents
  induction sents with
  | nil =>
    intro chunks cur d
    simp only [chunkGoD, chunkGo]
  | cons s rest ih =>
    intro chunks cur d
    simp only [chunkGoD, chunkGo]
    by_cases hsplit : cur.length + s.length > mx
    · simp only [if_pos hsplit]
      exact ih _ _ _
    · simp only [if_neg hsplit]
      exact ih _ _ _

theorem chunkGo_acc {α : Type} (mx mn ov : ℕ)
    (sents chunks : List (List α)) (cur : List α) :
    chunkGo mx mn ov chunks cur sents =
      chunks ++ chunkGo mx mn ov [] cur sents := by
  rw [← chunkGoD_fst mx mn ov sents chunks cur false, chunkGoD_acc,
    ← chunkGoD_fst mx mn ov sents [] cur false]

theorem unchunkTail_eq_unchunkFrom {α : Type} (ov : ℕ) (prev : List α)
    (l : List (List α)) :
    unchunkTail ov prev l = unchunkFrom ov (min ov prev.length) l := by
  cases l <;> rfl

theorem unchunk_eq_unchunkFrom {α : Type} (ov : ℕ) (l : List (List α)) :
    unchunk ov l = unchunkFrom ov 0 l := by
  cases l <;> simp [unchunk, unchunkFrom]

theorem unchunkFrom_cons {α : Type} (ov n : ℕ) (c : List α)
    (l : List (List α)) :
    unchunkFrom ov n (c :: l) =
      c.drop n ++ unchunkFrom ov (min ov c.length) l := by
  rw [unchunkFrom, unchunkTail_eq_unchunkFrom]

theorem chunkGoD_unchunkFrom {α : Type} (mx mn ov : ℕ) :
    ∀ (sents : List (List α)) (cur : List α) (n : ℕ) (d : Bool),
      (∀ s ∈ sents, s ≠ []) → cur ≠ [] → n ≤ cur.length →
      (chunkGoD mx mn ov [] cur d sents).2 = false →
      unchunkFrom ov n (chunkGo mx mn ov [] cur sents) =
        cur.drop n ++ sents.join := by
  intro sents
  induction sents with
  | nil =>
    intro cur n d _ hcur hn hflag
    simp only [chunkGoD] at hflag
    simp only [Bool.or_eq_false_iff, Bool.and_eq_false_iff,
      decide_eq_false_iff_not, not_not, not_lt] at hflag
    have hmn : mn ≤ cur.length := by
      rcases hflag.2 with h | h
      · exact absurd h hcur
      · exact h
    rw [chunkGo, if_pos ⟨hcur, hmn⟩]
    simp only [List.nil_append, List.join_nil, List.append_nil]
    rw [unchunkFrom]
    simp [unchunkTail]
  | cons s rest ih =>
    intro cur n d hne hcur hn hflag
    have hs : s ≠ [] := hne s (by simp)
    have hne' : ∀ t ∈ rest, t ≠ [] := fun t ht => hne t (by simp [ht])
    rw [chunkGo]
    simp only [chunkGoD] at hflag
    by_cases hsplit : cur.length + s.length > mx
    · simp only [if_pos hsplit] at hflag ⊢
      rw [chunkGoD_acc] at hflag
      simp only [Bool.or_eq_false_iff, Bool.and_eq_false_iff,
        decide_eq_false_iff_not, not_not, not_lt] at hflag
      obtain ⟨⟨_, hG⟩, hR⟩ := hflag
      have hmn : mn ≤ cur.length := by
        rcases hG with h | h
        · exact absurd h hcur
        · exact h
      rw [if_pos hmn]
      rw [chunkGo_acc]
      simp only [List.nil_append]
      rw [show ([cur] : List (List α)) ++
          chunkGo mx mn ov [] (if 0 < ov ∧ cur ≠ [] then lastN ov cur ++ s
            else s) rest =
          cur :: chunkGo mx mn ov [] (if 0 < ov ∧ cur ≠ [] then
            lastN ov cur ++ s else s) rest from rfl]
      rw [unchunkFrom_cons]
      by_cases hov : 0 < ov ∧ cur ≠ []
      · simp only [if_pos hov] at hR ⊢
        rw [ih (lastN ov cur ++ s) (min ov cur.length) false hne'
          (by simp [hs]) (by rw [List.length_append, lastN_length]; omega) hR]
        rw [lastN_append_drop]
        simp [List.join]
      · simp only [if_neg hov] at hR ⊢
        have hov0 : min ov cur.length = 0 := by
          rcases Decidable.not_and_iff_or_not.mp hov with h | h
          · omega
          · exact absurd (by simpa using h) hcur
        rw [hov0, ih s 0 false hne' hs (by omega) hR]
        simp [List.join]
    · simp only [if_neg hsplit] at hflag ⊢
      rw [ih (cur ++ s) n d hne' (by simp [hcur]) (by simp; omega) hflag,
        List.drop_append_of_le_length hn]
      simp [List.join]

theorem chunkGo_bounds {α : Type} (mx mn ov : ℕ) (S : List (List α)) :
    ∀ (sents chunks : List (List α)) (cur : List α),
      (∀ c ∈ chunks, mn ≤ c.length ∧
        (c.length ≤ mx ∨ ∃ s ∈ S, c.length ≤ ov + s.length)) →
      (cur.length ≤ mx ∨ ∃ s ∈ S, cur.length ≤ ov + s.length) →
      (∀ s ∈ sents, s ∈ S) →
      ∀ c ∈ chunkGo mx mn ov chunks cur sents,
        mn ≤ c.length ∧
          (c.length ≤ mx ∨ ∃ s ∈ S, c.length ≤ ov + s.length) := by
  intro sents
  induction sents with
  | nil =>
    intro chunks cur hchunks hcur _ c hc
    rw [chunkGo] at hc
    by_cases hclose : cur ≠ [] ∧ mn ≤ cur.length
    · rw [if_pos hclose] at hc
      rcases List.mem_append.mp hc with h | h
      · exact hchunks c h
      · rw [List.mem_singleton] at h
        exact h ▸ ⟨hclose.2, hcur⟩
    · rw [if_neg hclose] at hc
      exact hchunks c hc
  | cons s rest ih =>
    intro chunks cur hchunks hcur hmem c hc
    have hsS : s ∈ S := hmem s (by simp)
    have hmem' : ∀ t ∈ rest, t ∈ S := fun t ht => hmem t (by simp [ht])
    rw [chunkGo] at hc
    by_cases hsplit : cur.length + s.length > mx
    · rw [if_pos hsplit] at hc
      refine ih _ _ ?_ ?_ hmem' c hc
      · intro c' hc'
        by_cases hemit : mn ≤ cur.length
        · rw [if_pos hemit] at hc'
          rcases List.mem_append.mp hc' with h | h
          · exact hchunks c' h
          · rw [List.mem_singleton] at h
            exact h ▸ ⟨hemit, hcur⟩
        · rw [if_neg hemit] at hc'
          exact hchunks c' hc'
      · by_cases hov : 0 < ov ∧ cur ≠ []
        · rw [if_pos hov]
          refine Or.inr ⟨s, hsS, ?_⟩
          rw [List.length_append, lastN_length]
          omega
        · rw [if_neg hov]
          exact Or.inr ⟨s, hsS, by omega⟩
    · rw [if_neg hsplit] at hc
      refine ih _ _ hchunks (Or.inl ?_) hmem' c hc
      rw [List.length_append]
      omega

theorem chunkGo_min_empty {α : Type} (mx mn ov : ℕ) :
    ∀ (sents : List (List α)) (cur : List α),
      mn ≤ mx → cur.length + sents.join.length < mn →
      chunkGo mx mn ov [] cur sents = [] := by
  intro sents
  induction sents with
  | nil =>
    intro cur hmx hlen
    rw [chunkGo, if_neg]
    intro h
    simp at hlen
    omega
  | cons s rest ih =>
    intro cur hmx hlen
    have hjoin : (s :: rest).join.length = s.length + rest.join.length := by
      simp
    rw [chunkGo, if_neg (by omega)]
    apply ih (cur ++ s) hmx
    rw [List.length_append]
    omega

/-- C10. Every chunk returned by `chunk_document` — including the final
chunk — has at least `min_chunk_size` words (undersized buffers are
discarded, never emitted); consequently, whenever min_chunk_size ≤
max_chunk_size, a document with fewer than `min_chunk_size` words in total
yields an empty chunk sequence: its sentences are silently dropped. -/
theorem chunk_document_min_size {α : Type} (sents : List (List α))
    (mx mn ov : ℕ) :
    (∀ c ∈ chunk_document sents mx mn ov, mn ≤ c.length)
    ∧ (mn ≤ mx → sents.join.length < mn →
        chunk_document sents mx mn ov = []) := by
  constructor
  · intro c hc
    exact (chunkGo_bounds mx mn ov sents sents [] [] (by simp)
      (Or.inl (by simp)) (fun s hs => hs) c hc).1
  · intro h1 h2
    rw [chunk_document]
    exact chunkGo_min_empty mx mn ov sents [] h1 (by simpa using h2)

/-- C10 (witness): a two-sentence, two-word document chunked with the
default parameters (300/50/20) produces no chunks at all. -/
theorem chunk_document_min_size_witness :
    chunk_document [[(0 : ℕ)], [1]] 300 50 20 = [] :=
  (chunk_document_min_size [[0], [1]] 300 50 20).2 (by omega) (by decide)

/-- C5 (counterexample). The claim
"min_chunk_size ≤ word count ≤ max_chunk_size except possibly the last
chunk, which may only be shorter" is false at an explicit input: with
max = 3, min = 1, overlap = 0 and sentences of 4 and 1 words, the first
(non-final) chunk has 4 > 3 words — an oversized sentence is emitted as an
oversized chunk. -/
theorem chunk_document_oversize_cex :
    chunk_document [[(0 : ℕ), 1, 2, 3], [9]] 3 1 0 = [[0, 1, 2, 3], [9]]
    ∧ ∃ c ∈ (chunk_document [[(0 : ℕ), 1, 2, 3], [9]] 3 1 0).dropLast,
        3 < c.length := by
  constructor
  · rfl
  · exact ⟨[0, 1, 2, 3], by decide⟩

/-- C5 (amended). Every chunk (the last included) has at least
`min_chunk_size` words, and every chunk has at most `max_chunk_size` words
unless it consists of carried overlap words followed by one oversized
sentence, in which case its word count is at most `overlap` plus that
sentence's word count. -/
theorem chunk_document_size_bounds {α : Type} (sents : List (List α))
    (mx mn ov : ℕ) :
    ∀ c ∈ chunk_document sents mx mn ov,
      mn ≤ c.length ∧
        (c.length ≤ mx ∨ ∃ s ∈ sents, c.length ≤ ov + s.length) :=
  fun c hc => chunkGo_bounds mx mn ov sents sents [] [] (by simp)
    (Or.inl (by simp)) (fun s hs => hs) c hc

/-- C5 (witness for the amended claim): on the counterexample input the
oversized first chunk is within overlap + its sentence's length. -/
theorem chunk_document_size_bounds_witness :
    1 ≤ ([(0 : ℕ), 1, 2, 3] : List ℕ).length ∧
      (([(0 : ℕ), 1, 2, 3] : List ℕ).length ≤ 3 ∨
        ∃ s ∈ [[(0 : ℕ), 1, 2, 3], [9]],
          ([(0 : ℕ), 1, 2, 3] : List ℕ).length ≤ 0 + s.length) :=
  chunk_document_size_bounds [[0, 1, 2, 3], [9]] 3 1 0 [0, 1, 2, 3]
    (by decide)

/-- C4 (counterexample). The claim that removing overlap regions and
concatenating reproduces the original sentence sequence is false at an
explicit input: with max = 3, min = 2, overlap = 0 and sentences of 1 and 3
words, the one-word first sentence is silently discarded (its buffer never
reached min_chunk_size), so the reconstruction misses it. -/
theorem chunk_document_drop_cex :
    chunk_document [[(0 : ℕ)], [1, 2, 3]] 3 2 0 = [[1, 2, 3]]
    ∧ unchunk 0 (chunk_document [[(0 : ℕ)], [1, 2, 3]] 3 2 0) ≠
        [[(0 : ℕ)], [1, 2, 3]].join
    ∧ (chunk_documentD [[(0 : ℕ)], [1, 2, 3]] 3 2 0).2 = true := by
  refine ⟨rfl, ?_, rfl⟩
  decide

/-- C4 (amended). For nonempty sentences, whenever no buffer is discarded
during chunking (no nonempty buffer is closed below `min_chunk_size` —
recorded by the instrumented run's flag), removing the carried overlap
region from the head of each chunk after the first and concatenating the
chunks in order reproduces the original sentence sequence exactly. -/
theorem chunk_document_reconstructs {α : Type} (sents : List (List α))
    (mx mn ov : ℕ) (hne : ∀ s ∈ sents, s ≠ [])
    (hnd : (chunk_documentD sents mx mn ov).2 = false) :
    unchunk ov (chunk_document sents mx mn ov) = sents.join := by
  cases sents with
  | nil => rfl
  | cons s rest =>
    have hs : s ≠ [] := hne s (by simp)
    have hne' : ∀ t ∈ rest, t ≠ [] := fun t ht => hne t (by simp [ht])
    rw [chunk_documentD] at hnd
    rw [chunk_document, chunkGo]
    simp only [chunkGoD, List.length_nil, Nat.zero_add, List.nil_append]
      at hnd ⊢
    by_cases hsplit : s.length > mx
    · simp only [if_pos hsplit] at hnd ⊢
      have hcur : ¬ (0 < ov ∧ ([] : List α) ≠ []) := by simp
      simp only [if_neg hcur] at hnd ⊢
      rw [chunkGoD_acc] at hnd
      simp only [Bool.or_eq_false_iff] at hnd
      by_cases hemit : mn ≤ 0
      · simp only [if_pos hemit]
        rw [chunkGo_acc]
        rw [show (([[]] : List (List α))) ++ chunkGo mx mn ov [] s rest =
          [] :: chunkGo mx mn ov [] s rest from rfl]
        rw [unchunk]
        rw [unchunkTail_eq_unchunkFrom]
        simp only [List.length_nil, Nat.min_zero, List.nil_append]
        rw [chunkGoD_unchunkFrom mx mn ov rest s 0 false hne' hs
          (by omega) hnd.2]
        simp
      · simp only [if_neg hemit]
        rw [unchunk_eq_unchunkFrom,
          chunkGoD_unchunkFrom mx mn ov rest s 0 false hne' hs
            (by omega) hnd.2]
        simp
    · simp only [if_neg hsplit] at hnd ⊢
      rw [unchunk_eq_unchunkFrom,
        chunkGoD_unchunkFrom mx mn ov rest s 0 false hne' hs
          (by omega) hnd]
      simp

/-- C4 (witness for the amended claim): a three-sentence document chunked
with max = 3, min = 1, overlap = 1 reconstructs its word sequence exactly
after overlap removal. -/
theorem chunk_document_reconstructs_witness :
    unchunk 1 (chunk_document [[(0 : ℕ), 1], [2, 3], [4]] 3 1 1) =
      [[(0 : ℕ), 1], [2, 3], [4]].join :=
  chunk_document_reconstructs [[0, 1], [2, 3], [4]] 3 1 1 (by decide) rfl

/-- C1 (witness): searching a three-vector index with k = 2 returns
min 2 3 ids. -/
theorem search_index_knn_witness :
    (search_index [((0 : ℕ), (0 : ℕ))] ⟨2, [[0, 0], [3, 0], [1, 0]]⟩
      [1, 0] 2).2.1.length = min 2 3 :=
  (search_index_knn [(0, 0)] ⟨2, [[0, 0], [3, 0], [1, 0]]⟩ [1, 0] 2).1

/-- C6 (witness): a concrete save/load round trip. -/
theorem save_load_roundtrip_witness :
    load_index "p" (save_index ⟨2, [[1, 2]]⟩ [((0 : ℕ), (7 : ℕ))] "p" []) =
      .ok (⟨2, [[1, 2]]⟩, [(0, 7)]) :=
  save_load_roundtrip ⟨2, [[1, 2]]⟩ [(0, 7)] "p" []

/-- C7 (witness): retrieval on a state where no index file was ever
written reports the index-missing error. -/
theorem load_index_notfound_witness :
    retrieve_relevant_chunks ([] : FS ℕ) [1] 5 = .error .indexNotFound :=
  (load_index_notfound ℕ).2.2.2.2 [] [1] 5 rfl

/-- C9 (witness): the score of distance 1 is in (0, 1]. -/
theorem relevance_score_bounds_witness :
    0 < relevance_score 1 ∧ relevance_score 1 ≤ 1 :=
  (relevance_score_bounds ([] : FS ℕ) [0] 5).2.1 1 (by norm_num)

/-- C2 (code bug evaluation). The claim that `add_documents_to_index`
returns the assigned id list [current_size, current_size+N) is right as
intent, but false of the code as written: every call that passes the
dimension check (the only path that reaches line 60) computes the ids and
mutates the store, then calls `save_index` while already holding the
non-reentrant `index_lock` acquired at line 47, and blocks forever on the
re-acquisition at line 69 — so the id list is never returned. -/
theorem add_documents_ids_never_returned (M : Type) (store : List (ℕ × M))
    (index : FaissIndex) (embs : List Vec) (metas : List M) (fs : FS M)
    (hdim : embs.all (fun v => v.length = index.dim) = true) :
    add_documents_to_index_locked false store index embs metas fs = none := by
  have hadd : (add_documents_to_index store index embs metas).2 =
      some (⟨index.dim, index.vecs ++ embs⟩, assignedIds store embs) := by
    rw [add_documents_to_index, faissIndexAdd, if_pos hdim]
  simp only [add_documents_to_index_locked, withLock, if_neg
    (by simp : ¬ false = true)]
  rw [hadd]
  rfl

/-- C2 (witness): the concrete one-vector add on a one-entry store — the
input whose data semantics would assign id 1 — blocks forever. -/
theorem add_documents_ids_never_returned_witness :
    add_documents_to_index_locked false [((0 : ℕ), (5 : ℕ))] ⟨2, [[3, 4]]⟩
      [[1, 2]] [7] [] = none :=
  add_documents_ids_never_returned ℕ [(0, 5)] ⟨2, [[3, 4]]⟩ [[1, 2]] [7] []
    (by decide)
